import Mathlib

/-!
Verification of the libgeodesk core against its specification.

The definitions below are shallow embeddings of the C++ sources:
`Tile.cpp`, `Selector.cpp`, `BitIterator.h`, `BlobStore.h`, `TaskQueue.h`,
`Deduplicator.h` and `LengthUnit.cpp`.  Machine integers are modelled as
`Nat`/`Int` with explicit reductions modulo `2 ^ w` where wrap-around matters.
Definitions whose bodies are not among the sources are modelled from the
specification and say so in their doc comment.
-/

/-! ## BlobStore: page geometry -/

namespace BlobStore

/-- Default value of `BlobStore::pageSizeShift_` from the source (4 KiB pages). -/
def defaultPageSizeShift : Nat := 12

/-- Modelled from the spec: the body of `BlobStore::pagesForPayloadSize` is not
among the sources (the header only declares it).  The spec defines the blob
size in pages as `pages = ceil((payloadSize + 8) / pageSize)` with
`pageSize = 2 ^ pageSizeShift`. -/
def pagesForPayloadSize (pageSizeShift payloadSize : Nat) : Nat :=
  (payloadSize + 8 + (2 ^ pageSizeShift - 1)) / 2 ^ pageSizeShift

/-- `BlobStore::Transaction::isFirstPageOfSegment`:
`(page & ((0x3fffffff) >> pageSizeShift_)) == 0`. -/
def isFirstPageOfSegment (pageSizeShift page : Nat) : Bool :=
  page &&& (0x3fffffff >>> pageSizeShift) == 0

end BlobStore

/-! ## LengthUnit conversion tables -/

namespace LengthUnit

/-- `LengthUnit::METERS_TO_UNIT` from the source, as exact rationals
(meters, kilometers, feet, yards, miles). -/
def METERS_TO_UNIT : List ℚ :=
  [1, 1/1000, 328084/100000, 1093613/1000000,
   6213711922373339/10000000000000000000]

/-- `LengthUnit::UNITS_TO_METERS` from the source: the reciprocals
`1.0 / x` of the corresponding `METERS_TO_UNIT` entries, as exact rationals. -/
def UNITS_TO_METERS : List ℚ :=
  [1, 1/(1/1000), 1/(328084/100000), 1/(1093613/1000000),
   1/(6213711922373339/10000000000000000000)]

end LengthUnit

/-! ## BitIterator -/

/-- `Bits::countTrailingZerosInNonZero`, modelled on naturals (meaningful for
nonzero input, as the source name demands). -/
def ctz (n : Nat) : Nat :=
  if h : n = 0 then 0
  else if n % 2 = 1 then 0
  else 1 + ctz (n / 2)
decreasing_by exact Nat.div_lt_self (Nat.pos_of_ne_zero h) (by norm_num)

/-- State of `BitIterator<uint32_t>`: the remaining bits and the running
bit position. -/
structure BitIterator32 where
  bits : Nat
  pos : Int
deriving DecidableEq

/-- `BitIterator<uint32_t>::next`.  When `bits_ = 0` it returns `-1`;
otherwise it computes `n = countTrailingZeros(bits_)`, returns `pos_ + n`,
and executes `bits_ >>= n + 1; pos_ += n + 1`.  When the highest bit is set,
`n + 1` equals 32: shifting a `uint32_t` by 32 is undefined behavior in C++;
x86 masks the shift count to its low five bits, which is modelled here as
`(n + 1) % 32`. -/
def BitIterator32.next (it : BitIterator32) : Int × BitIterator32 :=
  if it.bits = 0 then (-1, it)
  else
    let n := ctz it.bits
    (it.pos + n,
     { bits := (it.bits >>> ((n + 1) % 32)) % 2 ^ 32, pos := it.pos + (n + 1) })

/-! ## Tile parsing and formatting -/

/-- A tile identity.  Modelled from the spec: the class `Tile` itself (its
packed representation and the accessors `zoom()`, `column()`, `row()`) is not
among the sources; the spec identifies a tile by `(zoom, column, row)`. -/
structure TileId where
  zoom : Int
  col : Int
  row : Int
deriving DecidableEq

/-- The `Tile` value: `none` models the empty/null tile produced by the
default constructor `Tile()`. -/
abbrev Tile := Option TileId

/-- Modelled from the spec: `Tile::fromColumnRowZoom` is not among the
sources; it constructs the (non-null) tile with the given column, row and
zoom. -/
def Tile.fromColumnRowZoom (col row zoom : Int) : Tile :=
  some ⟨zoom, col, row⟩

/-- The digit character for a value `d < 10`. -/
def digitChar (d : Nat) : Char := Char.ofNat (48 + d)

/-- Digit-emitting loop of `Format::unsignedIntegerReverse`: prepends the
decimal digits of `n` (most significant first) to the text `acc` already
written to its right. -/
def decDigitsAux (n : Nat) (acc : List Char) : List Char :=
  if h : n = 0 then acc
  else decDigitsAux (n / 10) (digitChar (n % 10) :: acc)
decreasing_by exact Nat.div_lt_self (Nat.pos_of_ne_zero h) (by norm_num)

/-- Modelled from the spec: `Format::unsignedIntegerReverse` is not among the
sources; it writes the decimal representation of `n` (at least one digit). -/
def unsignedIntegerReverse (n : Nat) : List Char :=
  if n = 0 then ['0'] else decDigitsAux n []

/-- The C cast `static_cast<unsigned int>` applied to an integer value. -/
def castUInt32 (i : Int) : Nat := (i % (2 ^ 32 : Int)).toNat

/-- `Tile::formatReverse`, read forward: the text
`"<zoom>/<column>/<row>"` with each component printed by
`Format::unsignedIntegerReverse` after a cast to `unsigned int`. -/
def Tile.formatReverse (t : TileId) : List Char :=
  unsignedIntegerReverse (castUInt32 t.zoom) ++
    '/' :: unsignedIntegerReverse (castUInt32 t.col) ++
      '/' :: unsignedIntegerReverse (castUInt32 t.row)

/-- C `isspace` in the default locale: space (32) or one of the control
characters 9 to 13. -/
def isSpaceC (c : Char) : Bool :=
  c.toNat = 32 || (9 ≤ c.toNat && c.toNat ≤ 13)

/-- Decimal digit test. -/
def isDigitC (c : Char) : Bool :=
  48 ≤ c.toNat && c.toNat ≤ 57

/-- Consume the leading run of decimal digits, accumulating their value. -/
def parseDigits : List Char → Nat → Nat × List Char
  | [], acc => (acc, [])
  | c :: cs, acc =>
    if isDigitC c then parseDigits cs (acc * 10 + (c.toNat - 48))
    else (acc, c :: cs)

/-- The digit run at the head of `s`, or `none` when `s` does not start with
a digit. -/
def digitRun (s : List Char) : Option (Nat × List Char) :=
  match s with
  | [] => none
  | c :: _ => if isDigitC c then some (parseDigits s 0) else none

/-- The value of `LONG_MAX` for the 64-bit `long` read by `strtol`
(`2 ^ 63 - 1`). -/
def LONG_MAX : Nat := 2 ^ 63 - 1

/-- C `strtol(s, &p, 10)`: skip leading whitespace, accept an optional sign
and then a digit run; a converted value outside the `long` range is clamped
to `LONG_MAX` (positive) or `LONG_MIN = -(LONG_MAX + 1)` (negative), with the
end pointer still past the digit run; when no digits follow, return 0 and
reset the end pointer to the start of the input. -/
def strtol10 (s : List Char) : Int × List Char :=
  match s.dropWhile isSpaceC with
  | [] => (0, s)
  | c :: r =>
    if c = '+' then
      match digitRun r with
      | some (n, rest) => (((min n LONG_MAX : Nat) : Int), rest)
      | none => (0, s)
    else if c = '-' then
      match digitRun r with
      | some (n, rest) => (-((min n (LONG_MAX + 1) : Nat) : Int), rest)
      | none => (0, s)
    else
      match digitRun (c :: r) with
      | some (n, rest) => (((min n LONG_MAX : Nat) : Int), rest)
      | none => (0, s)

/-- `Tile::fromString`: three `strtol` calls separated by `'/'` checks; a
zoom outside `[0, 12]`, a missing separator, or trailing characters yield the
null tile. -/
def Tile.fromString (s : List Char) : Tile :=
  let z := strtol10 s
  if z.1 < 0 ∨ z.1 > 12 then none
  else
    match z.2 with
    | '/' :: p1 =>
      let c := strtol10 p1
      match c.2 with
      | '/' :: p3 =>
        let r := strtol10 p3
        if r.2 = [] then Tile.fromColumnRowZoom c.1 r.1 z.1 else none
      | _ => none
    | _ => none

/-! ## Decimal parsing and printing lemmas -/

/-- Parsing a run of digits followed by a non-digit accumulates the digits
into the base-10 value and stops exactly at the non-digit. -/
theorem parseDigits_append (ds rest : List Char) (acc : Nat)
    (hds : ∀ c ∈ ds, isDigitC c = true)
    (hrest : ∀ c, rest.head? = some c → isDigitC c = false) :
    parseDigits (ds ++ rest) acc =
      (ds.foldl (fun a c => a * 10 + (c.toNat - 48)) acc, rest) := by
  induction ds generalizing acc with
  | nil =>
      simp only [List.nil_append, List.foldl_nil]
      cases rest with
      | nil => rfl
      | cons c cs =>
          have hc := hrest c rfl
          simp [parseDigits, hc]
  | cons d ds ih =>
      have hd : isDigitC d = true := hds d (by simp)
      simp only [List.cons_append, parseDigits, hd, if_true, List.foldl_cons]
      exact ih _ (fun c hc => hds c (by simp [hc]))

/-- Unfolding `decDigitsAux` at zero. -/
theorem decDigitsAux_zero (acc : List Char) : decDigitsAux 0 acc = acc := by
  rw [decDigitsAux]
  simp

/-- The accumulator of `decDigitsAux` is simply appended on the right. -/
theorem decDigitsAux_append (n : Nat) :
    ∀ acc, decDigitsAux n acc = decDigitsAux n [] ++ acc := by
  induction n using Nat.strong_induction_on with
  | _ n ih =>
      intro acc
      by_cases h : n = 0
      · subst h
        rw [decDigitsAux_zero, decDigitsAux_zero]
        simp
      · have hlt : n / 10 < n := Nat.div_lt_self (Nat.pos_of_ne_zero h) (by norm_num)
        rw [decDigitsAux]
        simp only [h, dite_false]
        conv_rhs => rw [decDigitsAux]
        simp only [h, dite_false]
        rw [ih _ hlt (digitChar (n % 10) :: acc), ih _ hlt [digitChar (n % 10)]]
        simp

/-- Value of a digit character. -/
theorem digitChar_toNat (d : Nat) (hd : d < 10) : (digitChar d).toNat = 48 + d := by
  interval_cases d <;> rfl

/-- A digit character passes `isDigitC`. -/
theorem isDigitC_digitChar (d : Nat) (hd : d < 10) : isDigitC (digitChar d) = true := by
  interval_cases d <;> rfl

/-- The digits emitted by `decDigitsAux` evaluate back to `n` under the
base-10 left fold. -/
theorem decDigitsAux_val (n : Nat) (hn : 0 < n) :
    ∀ a, (decDigitsAux n []).foldl (fun x c => x * 10 + (c.toNat - 48)) a =
      a * 10 ^ (decDigitsAux n []).length + n := by
  induction n using Nat.strong_induction_on with
  | _ n ih =>
      intro a
      have h : n ≠ 0 := Nat.pos_iff_ne_zero.mp hn
      rw [decDigitsAux]
      simp only [h, dite_false]
      rw [decDigitsAux_append]
      by_cases h10 : n / 10 = 0
      · have hsmall : n < 10 := by omega
        rw [h10, decDigitsAux_zero]
        simp only [List.nil_append, List.foldl_cons, List.foldl_nil,
          List.length_singleton]
        rw [digitChar_toNat (n % 10) (by omega), pow_one]
        have hmod : n % 10 = n := Nat.mod_eq_of_lt hsmall
        omega
      · have hlt : n / 10 < n := Nat.div_lt_self hn (by norm_num)
        have ihv := ih _ hlt (Nat.pos_iff_ne_zero.mpr h10) a
        rw [List.foldl_append, ihv]
        simp only [List.foldl_cons, List.foldl_nil]
        rw [digitChar_toNat (n % 10) (by omega)]
        have hlen : (decDigitsAux (n / 10) [] ++ [digitChar (n % 10)]).length =
            (decDigitsAux (n / 10) []).length + 1 := by simp
        rw [hlen, pow_succ]
        have hdm : 10 * (n / 10) + n % 10 = n := Nat.div_add_mod n 10
        have hassoc : a * (10 ^ (decDigitsAux (n / 10) []).length * 10)
            = a * 10 ^ (decDigitsAux (n / 10) []).length * 10 := by ring
        omega

/-- Every character emitted by `decDigitsAux` is a digit. -/
theorem decDigitsAux_digits (n : Nat) :
    ∀ c ∈ decDigitsAux n [], isDigitC c = true := by
  induction n using Nat.strong_induction_on with
  | _ n ih =>
      intro c hc
      rw [decDigitsAux] at hc
      by_cases h : n = 0
      · simp [h] at hc
      · simp only [h, dite_false] at hc
        rw [decDigitsAux_append] at hc
        rcases List.mem_append.mp hc with hmem | hmem
        · exact ih _ (Nat.div_lt_self (Nat.pos_of_ne_zero h) (by norm_num)) c hmem
        · simp only [List.mem_singleton] at hmem
          subst hmem
          exact isDigitC_digitChar _ (Nat.mod_lt n (by omega))

/-- Every character of a printed unsigned integer is a digit. -/
theorem unsignedIntegerReverse_digits (n : Nat) :
    ∀ c ∈ unsignedIntegerReverse n, isDigitC c = true := by
  intro c hc
  unfold unsignedIntegerReverse at hc
  by_cases h : n = 0
  · simp [h] at hc
    subst hc
    rfl
  · simp only [h, if_false] at hc
    exact decDigitsAux_digits n c hc

/-- A printed unsigned integer has at least one character. -/
theorem unsignedIntegerReverse_ne_nil (n : Nat) : unsignedIntegerReverse n ≠ [] := by
  unfold unsignedIntegerReverse
  by_cases h : n = 0
  · simp [h]
  · simp only [h, if_false]
    rw [decDigitsAux]
    simp only [h, dite_false]
    rw [decDigitsAux_append]
    simp

/-- A printed unsigned integer evaluates back to its value. -/
theorem unsignedIntegerReverse_val (n : Nat) :
    (unsignedIntegerReverse n).foldl (fun x c => x * 10 + (c.toNat - 48)) 0 = n := by
  unfold unsignedIntegerReverse
  by_cases h : n = 0
  · simp [h]
  · simp only [h, if_false]
    rw [decDigitsAux_val n (Nat.pos_of_ne_zero h) 0]
    simp

/-- `strtol` on a printed unsigned integer within the `long` range followed
by a non-digit consumes exactly the printed digits and returns the value. -/
theorem strtol10_decimal (n : Nat) (rest : List Char) (hn : n ≤ LONG_MAX)
    (hrest : ∀ c, rest.head? = some c → isDigitC c = false) :
    strtol10 (unsignedIntegerReverse n ++ rest) = ((n : Int), rest) := by
  obtain ⟨c0, ds, hU⟩ := List.exists_cons_of_ne_nil (unsignedIntegerReverse_ne_nil n)
  have hc0 : isDigitC c0 = true := unsignedIntegerReverse_digits n c0 (by rw [hU]; simp)
  have hc0n : 48 ≤ c0.toNat ∧ c0.toNat ≤ 57 := by
    simpa [isDigitC] using hc0
  have hnotspace : isSpaceC c0 = false := by
    simp only [isSpaceC, Bool.or_eq_false_iff, Bool.and_eq_false_iff,
      decide_eq_false_iff_not]
    omega
  have hnotplus : c0 ≠ '+' := by
    intro hEq
    rw [hEq] at hc0n
    revert hc0n
    decide
  have hnotminus : c0 ≠ '-' := by
    intro hEq
    rw [hEq] at hc0n
    revert hc0n
    decide
  rw [hU, List.cons_append]
  unfold strtol10
  rw [List.dropWhile_cons]
  simp only [hnotspace, Bool.false_eq_true, if_false]
  rw [if_neg hnotplus, if_neg hnotminus]
  unfold digitRun
  simp only [hc0, if_true]
  rw [← List.cons_append, ← hU,
    parseDigits_append _ _ _ (unsignedIntegerReverse_digits n) hrest,
    unsignedIntegerReverse_val n, Nat.min_eq_left hn]

/-- The C cast to `unsigned int` is the identity on small natural values. -/
theorem castUInt32_natCast (n : Nat) (h : n < 2 ^ 32) : castUInt32 (n : Int) = n := by
  unfold castUInt32
  rw [Int.emod_eq_of_lt (by positivity) (by exact_mod_cast h)]
  simp

/-- Parsing a well-formed `"<zoom>/<column>/<row>"` string (canonical decimal
numerals within the `long` range, zoom at most 12) yields the corresponding
tile. -/
theorem fromString_decimal (z c r : Nat) (hz : z ≤ 12)
    (hc : c < 2 ^ 63) (hr : r < 2 ^ 63) :
    Tile.fromString (unsignedIntegerReverse z ++
        '/' :: (unsignedIntegerReverse c ++ '/' :: unsignedIntegerReverse r)) =
      some ⟨(z : Int), (c : Int), (r : Int)⟩ := by
  have hslash : ∀ cc : Char,
      (('/' :: (unsignedIntegerReverse c ++
          '/' :: unsignedIntegerReverse r)).head? = some cc) →
        isDigitC cc = false := by
    intro cc hcc
    simp only [List.head?_cons, Option.some.injEq] at hcc
    subst hcc
    rfl
  have hslash2 : ∀ cc : Char,
      (('/' :: unsignedIntegerReverse r).head? = some cc) →
        isDigitC cc = false := by
    intro cc hcc
    simp only [List.head?_cons, Option.some.injEq] at hcc
    subst hcc
    rfl
  have hnil : ∀ cc : Char, (([] : List Char).head? = some cc) →
      isDigitC cc = false := by
    intro cc hcc
    simp at hcc
  have hzL : z ≤ LONG_MAX := by
    simp only [LONG_MAX]
    omega
  have hcL : c ≤ LONG_MAX := by
    simp only [LONG_MAX]
    omega
  have hrL : r ≤ LONG_MAX := by
    simp only [LONG_MAX]
    omega
  have h1 := strtol10_decimal z _ hzL hslash
  have h2 := strtol10_decimal c _ hcL hslash2
  have h3 : strtol10 (unsignedIntegerReverse r) = ((r : Int), []) := by
    have h := strtol10_decimal r [] hrL hnil
    simpa using h
  have hzc : ¬((z : Int) < 0 ∨ (z : Int) > 12) := by omega
  simp only [Tile.fromString, h1, h2, h3, hzc, if_false, if_true,
    Tile.fromColumnRowZoom]

/-! ## Theorems: C2, C10, C6, C8 -/

/-- C2.  With the default page size (4096 bytes), the blob size in pages is
the ceiling of `(payloadSize + 8) / 4096`: the characterization
`payloadSize + 8 ≤ pages * 4096 < payloadSize + 8 + 4096` holds for every
payload size, and in particular `alloc(0)` and `alloc(4088)` take exactly one
page while `alloc(4089)` takes exactly two. -/
theorem blobStore_pagesForPayloadSize_spec (payloadSize : Nat) :
    (payloadSize + 8 ≤ BlobStore.pagesForPayloadSize 12 payloadSize * 4096 ∧
     BlobStore.pagesForPayloadSize 12 payloadSize * 4096 <
       payloadSize + 8 + 4096) ∧
    BlobStore.pagesForPayloadSize 12 0 = 1 ∧
    BlobStore.pagesForPayloadSize 12 4088 = 1 ∧
    BlobStore.pagesForPayloadSize 12 4089 = 2 := by
  refine ⟨?_, rfl, rfl, rfl⟩
  simp only [BlobStore.pagesForPayloadSize]
  norm_num
  omega

/-- C10.  For every page number below `2 ^ 32` and every `pageSizeShift ≤ 30`,
`isFirstPageOfSegment` is true exactly when the page number is a multiple of
`2 ^ (30 - pageSizeShift)`, i.e. when the page's absolute byte offset
`page * 2 ^ pageSizeShift` is a multiple of 1 GiB. -/
theorem blobStore_isFirstPageOfSegment_iff (pageSizeShift page : Nat)
    (hs : pageSizeShift ≤ 30) (hp : page < 2 ^ 32) :
    (BlobStore.isFirstPageOfSegment pageSizeShift page = true ↔
       page % 2 ^ (30 - pageSizeShift) = 0) ∧
    (BlobStore.isFirstPageOfSegment pageSizeShift page = true ↔
       (page * 2 ^ pageSizeShift) % 2 ^ 30 = 0) := by
  have hmask : (0x3fffffff : Nat) >>> pageSizeShift =
      2 ^ (30 - pageSizeShift) - 1 := by
    rw [Nat.shiftRight_eq_div_pow]
    have h30 : (0x3fffffff : Nat) = 2 ^ 30 - 1 := by norm_num
    rw [h30]
    have hsplit : (2 : Nat) ^ 30 = 2 ^ pageSizeShift * 2 ^ (30 - pageSizeShift) := by
      rw [← pow_add]
      congr 1
      omega
    have ha : 0 < (2 : Nat) ^ pageSizeShift := pow_pos (by norm_num) _
    have hb : 0 < (2 : Nat) ^ (30 - pageSizeShift) := pow_pos (by norm_num) _
    have hba : (2 : Nat) ^ pageSizeShift ≤
        2 ^ (30 - pageSizeShift) * 2 ^ pageSizeShift :=
      Nat.le_mul_of_pos_left _ hb
    have hsub : ((2 : Nat) ^ (30 - pageSizeShift) - 1) * 2 ^ pageSizeShift =
        2 ^ (30 - pageSizeShift) * 2 ^ pageSizeShift - 1 * 2 ^ pageSizeShift :=
      Nat.sub_mul _ _ _
    have key : 2 ^ pageSizeShift * 2 ^ (30 - pageSizeShift) - 1 =
        (2 ^ pageSizeShift - 1) +
          (2 ^ (30 - pageSizeShift) - 1) * 2 ^ pageSizeShift := by
      rw [hsub, mul_comm ((2 : Nat) ^ pageSizeShift)]
      omega
    rw [hsplit, key, Nat.add_mul_div_right _ _ ha,
      Nat.div_eq_of_lt (by omega : 2 ^ pageSizeShift - 1 < 2 ^ pageSizeShift)]
    omega
  have hiff1 : BlobStore.isFirstPageOfSegment pageSizeShift page = true ↔
      page % 2 ^ (30 - pageSizeShift) = 0 := by
    simp [BlobStore.isFirstPageOfSegment, hmask,
      Nat.and_pow_two_sub_one_eq_mod]
  refine ⟨hiff1, hiff1.trans ?_⟩
  rw [← Nat.dvd_iff_mod_eq_zero, ← Nat.dvd_iff_mod_eq_zero]
  have hsplit2 : (2 : Nat) ^ 30 = 2 ^ (30 - pageSizeShift) * 2 ^ pageSizeShift := by
    rw [← pow_add]
    congr 1
    omega
  rw [hsplit2]
  exact (Nat.mul_dvd_mul_iff_right (pow_pos (by norm_num) pageSizeShift)).symm

/-- Closed witness for C10: page `262144 = 2 ^ 18` with the default 4 KiB page
size begins a 1 GiB segment, and its byte offset is a multiple of `2 ^ 30`. -/
theorem blobStore_isFirstPageOfSegment_iff_witness :
    BlobStore.isFirstPageOfSegment 12 262144 = true ∧
      (262144 * 2 ^ 12) % 2 ^ 30 = 0 :=
  ⟨((blobStore_isFirstPageOfSegment_iff 12 262144 (by norm_num)
      (by norm_num)).2).mpr (by norm_num),
   by norm_num⟩

/-- C6.  Each length-unit conversion factor times its reverse factor is
exactly 1 (hence within `1e-9` of 1): the source defines `UNITS_TO_METERS`
entrywise as the reciprocal of `METERS_TO_UNIT`. -/
theorem lengthUnit_product_one (i : Nat) (hi : i < 5) :
    LengthUnit.UNITS_TO_METERS.getD i 0 * LengthUnit.METERS_TO_UNIT.getD i 0
        = 1 ∧
    |LengthUnit.UNITS_TO_METERS.getD i 0 * LengthUnit.METERS_TO_UNIT.getD i 0
        - 1| < 1 / 1000000000 := by
  interval_cases i <;>
    constructor <;>
      norm_num [LengthUnit.METERS_TO_UNIT, LengthUnit.UNITS_TO_METERS]

/-- Closed witness for C6 at the feet entry (`i = 2`). -/
theorem lengthUnit_product_one_witness :
    |LengthUnit.UNITS_TO_METERS.getD 2 0 * LengthUnit.METERS_TO_UNIT.getD 2 0
        - 1| < 1 / 1000000000 :=
  (lengthUnit_product_one 2 (by norm_num)).2

/-- Evaluation of `ctz` at powers of two. -/
theorem ctz_two_pow (k : Nat) : ctz (2 ^ k) = k := by
  induction k with
  | zero => rw [ctz]; norm_num
  | succ k ih =>
      rw [ctz]
      have h1 : (2 : Nat) ^ (k + 1) ≠ 0 := by positivity
      have h2 : (2 : Nat) ^ (k + 1) % 2 = 0 := by
        simp [pow_succ, Nat.mul_mod_left]
      have h3 : (2 : Nat) ^ (k + 1) / 2 = 2 ^ k := by
        rw [pow_succ]
        exact Nat.mul_div_cancel _ (by norm_num)
      simp [h1, h2, h3, ih]
      omega

/-- C8 (divergence evaluation).  For `T = uint32_t` and `bits = 2 ^ 31`
(highest bit set), the first call to `next()` returns 31, after which the
shift `bits_ >>= 32` is undefined behavior (modelled as the x86 masked shift,
which leaves `bits_` unchanged); the second call therefore returns 63 instead
of the documented `-1`. -/
theorem bitIterator_highBit_divergence :
    (BitIterator32.next ⟨2 ^ 31, 0⟩).1 = 31 ∧
    ((BitIterator32.next ⟨2 ^ 31, 0⟩).2.next).1 = 63 ∧
    ((BitIterator32.next ⟨2 ^ 31, 0⟩).2.next).1 ≠ -1 := by
  have h1 : BitIterator32.next ⟨2 ^ 31, 0⟩ = (31, ⟨2 ^ 31, 32⟩) := by
    simp only [BitIterator32.next, ctz_two_pow]
    norm_num [Nat.shiftRight_zero]
  have h2 : BitIterator32.next ⟨2 ^ 31, 32⟩ = (63, ⟨2 ^ 31, 64⟩) := by
    simp only [BitIterator32.next, ctz_two_pow]
    norm_num [Nat.shiftRight_zero]
  refine ⟨?_, ?_, ?_⟩
  · rw [h1]
  · rw [h1]
    rw [h2]
  · rw [h1, h2]
    norm_num

/-- C1.  Round-trip of tile serialization: for every tile with zoom in
`[0, 12]` and column/row valid for that zoom, parsing the formatted string
`"<zoom>/<column>/<row>"` returns the same tile. -/
theorem tile_fromString_format_roundtrip (z c r : Nat) (hz : z ≤ 12)
    (hc : c < 2 ^ z) (hr : r < 2 ^ z) :
    Tile.fromString (Tile.formatReverse ⟨(z : Int), (c : Int), (r : Int)⟩) =
      some ⟨(z : Int), (c : Int), (r : Int)⟩ := by
  have hzb : (2 : Nat) ^ z ≤ 2 ^ 12 := Nat.pow_le_pow_right (by norm_num) hz
  have hz32 : z < 2 ^ 32 := by omega
  have hc32 : c < 2 ^ 32 := by omega
  have hr32 : r < 2 ^ 32 := by omega
  have h := fromString_decimal z c r hz (by omega) (by omega)
  simpa [Tile.formatReverse, castUInt32_natCast _ hz32,
    castUInt32_natCast _ hc32, castUInt32_natCast _ hr32] using h

/-- Closed witness for C1 at the spec's example tile `5/17/9`. -/
theorem tile_fromString_format_roundtrip_witness :
    Tile.fromString (Tile.formatReverse ⟨(5 : Int), (17 : Int), (9 : Int)⟩) =
      some ⟨(5 : Int), (17 : Int), (9 : Int)⟩ := by
  have h := tile_fromString_format_roundtrip 5 17 9 (by norm_num)
    (by norm_num) (by norm_num)
  exact_mod_cast h

/-- C3 counterexample.  `strtol` skips leading whitespace and accepts a `'+'`
sign, so inputs that are not exactly of the form
`"<zoom>/<column>/<row>"` (unsigned decimal, no whitespace) can still parse
to a non-null tile, contradicting the claim's "every other input yields the
null Tile". -/
theorem tile_fromString_whitespace_counterexample :
    Tile.fromString (" 12/3/4".toList) = some ⟨12, 3, 4⟩ ∧
    Tile.fromString ("+5/1/2".toList) = some ⟨5, 1, 2⟩ := by
  constructor <;> rfl

/-- C3 (amended).  Every input exactly of the form
`"<zoom>/<column>/<row>"` (canonical unsigned decimal numerals whose values
fit in the signed 64-bit `long` read by `strtol`, zoom at most 12, no
whitespace, no trailing characters) parses to the corresponding non-null
tile, and `"13/0/0"` and `"-1/0/0"` yield the null tile; the converse
direction ("only such inputs") fails because `strtol` tolerates leading
whitespace and `'+'` signs. -/
theorem tile_fromString_amended :
    (∀ z c r : Nat, z ≤ 12 → c < 2 ^ 63 → r < 2 ^ 63 →
        Tile.fromString (unsignedIntegerReverse z ++
            '/' :: (unsignedIntegerReverse c ++
              '/' :: unsignedIntegerReverse r)) =
          some ⟨(z : Int), (c : Int), (r : Int)⟩) ∧
    Tile.fromString ("13/0/0".toList) = none ∧
    Tile.fromString ("-1/0/0".toList) = none :=
  ⟨fun z c r hz hc hr => fromString_decimal z c r hz hc hr, rfl, rfl⟩

/-- Closed witness for C3 (amended) at the boundary input `"12/0/0"`. -/
theorem tile_fromString_amended_witness :
    Tile.fromString (unsignedIntegerReverse 12 ++
        '/' :: (unsignedIntegerReverse 0 ++ '/' :: unsignedIntegerReverse 0)) =
      some ⟨(12 : Int), (0 : Int), (0 : Int)⟩ := by
  have h := tile_fromString_amended.1 12 0 0 (by norm_num) (by norm_num)
    (by norm_num)
  exact_mod_cast h

/-! ## Selector and TagClause -/

/-- Modelled from the spec: the class `TagClause` itself is not among the
sources; only the members read by `Selector::addClause` are modelled.
`keyOp` is the clause key ordered by `compareTo`, modelled as a natural
number under its order. -/
structure TagClause where
  keyOp : Nat
  flags : Nat
  category : Nat
deriving DecidableEq

/-- Modelled from the spec: the flag bit `TagClause::KEY_REQUIRED`. -/
def TagClause.KEY_REQUIRED : Nat := 1

/-- Modelled from the spec: `TagClause::absorb` merges the argument clause
into the receiver in place, so the receiver's `keyOp` (and position in the
chain) is unchanged. -/
def TagClause.absorb (cur clause : TagClause) : TagClause :=
  { cur with flags := cur.flags ||| clause.flags }

/-- Modelled from the spec: `IndexBits::fromCategory` yields the bit derived
from a clause category. -/
def IndexBits.fromCategory (category : Nat) : Nat := 2 ^ category

/-- The `Selector` fields touched by `Selector::addClause`; `firstClause` is
the clause chain threaded through `next` pointers. -/
structure Selector where
  acceptedTypes : Nat
  indexBits : Nat
  firstClause : List TagClause
deriving DecidableEq

/-- `Selector::Selector(FeatureTypes)`: empty chain, zero index bits. -/
def Selector.init (types : Nat) : Selector :=
  { acceptedTypes := types, indexBits := 0, firstClause := [] }

/-- The chain walk of `Selector::addClause`: advance while the current
clause's `keyOp` compares below the new clause's; absorb on an equal
compare; otherwise link the new clause before the current one.  Returns the
new chain and whether the clause was absorbed. -/
def insertClause : List TagClause → TagClause → List TagClause × Bool
  | [], clause => ([clause], false)
  | cur :: rest, clause =>
    if cur.keyOp < clause.keyOp then
      let t := insertClause rest clause
      (cur :: t.1, t.2)
    else if cur.keyOp = clause.keyOp then
      (cur.absorb clause :: rest, true)
    else
      (clause :: cur :: rest, false)

/-- `Selector::addClause`: on absorption the method returns before the
`KEY_REQUIRED` check, so `indexBits` is updated only when the clause is
linked in as a new node. -/
def Selector.addClause (s : Selector) (clause : TagClause) : Selector :=
  let t := insertClause s.firstClause clause
  if t.2 then { s with firstClause := t.1 }
  else
    { s with
      firstClause := t.1
      indexBits :=
        if clause.flags &&& TagClause.KEY_REQUIRED ≠ 0 then
          s.indexBits ||| IndexBits.fromCategory clause.category
        else s.indexBits }

/-- Branch equations for `insertClause` on a non-empty chain. -/
theorem insertClause_cons_lt {cur clause : TagClause} (rest : List TagClause)
    (h1 : cur.keyOp < clause.keyOp) :
    insertClause (cur :: rest) clause =
      (cur :: (insertClause rest clause).1, (insertClause rest clause).2) := by
  simp only [insertClause]
  rw [if_pos h1]

/-- Branch equation: equal keys are absorbed in place. -/
theorem insertClause_cons_eq {cur clause : TagClause} (rest : List TagClause)
    (h1 : ¬cur.keyOp < clause.keyOp) (h2 : cur.keyOp = clause.keyOp) :
    insertClause (cur :: rest) clause = (cur.absorb clause :: rest, true) := by
  simp only [insertClause]
  rw [if_neg h1, if_pos h2]

/-- Branch equation: a strictly greater key ends the walk and links the new
clause in front. -/
theorem insertClause_cons_gt {cur clause : TagClause} (rest : List TagClause)
    (h1 : ¬cur.keyOp < clause.keyOp) (h2 : ¬cur.keyOp = clause.keyOp) :
    insertClause (cur :: rest) clause = (clause :: cur :: rest, false) := by
  simp only [insertClause]
  rw [if_neg h1, if_neg h2]

/-- Every key in the chain produced by `insertClause` is either an old key or
the inserted clause's key. -/
theorem insertClause_keys {l : List TagClause} {clause x : TagClause}
    (hx : x ∈ (insertClause l clause).1) :
    x.keyOp ∈ l.map TagClause.keyOp ∨ x.keyOp = clause.keyOp := by
  induction l with
  | nil =>
      simp only [insertClause, List.mem_singleton] at hx
      subst hx
      right
      rfl
  | cons cur rest ih =>
      by_cases h1 : cur.keyOp < clause.keyOp
      · rw [insertClause_cons_lt rest h1] at hx
        rcases List.mem_cons.mp hx with hx | hx
        · subst hx
          left
          simp
        · rcases ih hx with hmem | heq
          · left
            simp only [List.map_cons, List.mem_cons]
            exact Or.inr hmem
          · right
            exact heq
      · by_cases h2 : cur.keyOp = clause.keyOp
        · rw [insertClause_cons_eq rest h1 h2] at hx
          rcases List.mem_cons.mp hx with hx | hx
          · subst hx
            left
            simp [TagClause.absorb]
          · left
            simp only [List.map_cons, List.mem_cons]
            exact Or.inr (List.mem_map_of_mem TagClause.keyOp hx)
        · rw [insertClause_cons_gt rest h1 h2] at hx
          rcases List.mem_cons.mp hx with hx | hx
          · subst hx
            right
            rfl
          · left
            exact List.mem_map_of_mem TagClause.keyOp hx

/-- `insertClause` preserves strict ascending order of the clause keys. -/
theorem insertClause_sorted {l : List TagClause} (clause : TagClause)
    (hl : List.Pairwise (fun a b => a.keyOp < b.keyOp) l) :
    List.Pairwise (fun a b => a.keyOp < b.keyOp) (insertClause l clause).1 := by
  induction l with
  | nil =>
      simp [insertClause]
  | cons cur rest ih =>
      rcases List.pairwise_cons.mp hl with ⟨hcur, hrest⟩
      by_cases h1 : cur.keyOp < clause.keyOp
      · rw [insertClause_cons_lt rest h1]
        refine List.pairwise_cons.mpr ⟨?_, ih hrest⟩
        intro y hy
        rcases insertClause_keys hy with hmem | heq
        · rcases List.mem_map.mp hmem with ⟨b, hb, hbeq⟩
          rw [← hbeq]
          exact hcur b hb
        · rw [heq]
          exact h1
      · by_cases h2 : cur.keyOp = clause.keyOp
        · rw [insertClause_cons_eq rest h1 h2]
          refine List.pairwise_cons.mpr ⟨?_, hrest⟩
          intro y hy
          exact hcur y hy
        · rw [insertClause_cons_gt rest h1 h2]
          have hgt : clause.keyOp < cur.keyOp := by omega
          refine List.pairwise_cons.mpr ⟨?_, hl⟩
          intro y hy
          rcases List.mem_cons.mp hy with hy | hy
          · rw [hy]
            exact hgt
          · exact hgt.trans (hcur y hy)

/-- C4.  After any sequence of `addClause` calls on a fresh selector, the
clause chain is strictly ascending in `keyOp`: it is sorted and holds at most
one clause per key (an equal-key clause is absorbed, never linked twice). -/
theorem selector_addClause_sorted_unique (types : Nat) (cs : List TagClause) :
    List.Pairwise (fun a b => a.keyOp < b.keyOp)
      ((cs.foldl Selector.addClause (Selector.init types)).firstClause) := by
  suffices h : ∀ s : Selector,
      List.Pairwise (fun a b => a.keyOp < b.keyOp) s.firstClause →
      List.Pairwise (fun a b => a.keyOp < b.keyOp)
        ((cs.foldl Selector.addClause s).firstClause) by
    exact h (Selector.init types) (by simp [Selector.init])
  induction cs with
  | nil => intro s hs; simpa using hs
  | cons c cs ih =>
      intro s hs
      rw [List.foldl_cons]
      refine ih _ ?_
      unfold Selector.addClause
      by_cases ht : (insertClause s.firstClause c).2
      · simp only [ht, if_true]
        exact insertClause_sorted c hs
      · simp only [ht, if_false]
        exact insertClause_sorted c hs

/-- On a sorted chain, `insertClause` absorbs exactly when some existing
clause has an equal key. -/
theorem insertClause_absorbed_iff {l : List TagClause} (clause : TagClause)
    (hl : List.Pairwise (fun a b => a.keyOp < b.keyOp) l) :
    (insertClause l clause).2 = true ↔ ∃ x ∈ l, x.keyOp = clause.keyOp := by
  induction l with
  | nil =>
      simp [insertClause]
  | cons cur rest ih =>
      rcases List.pairwise_cons.mp hl with ⟨hcur, hrest⟩
      by_cases h1 : cur.keyOp < clause.keyOp
      · rw [insertClause_cons_lt rest h1]
        rw [ih hrest]
        constructor
        · rintro ⟨x, hx, hxeq⟩
          exact ⟨x, List.mem_cons_of_mem cur hx, hxeq⟩
        · rintro ⟨x, hx, hxeq⟩
          rcases List.mem_cons.mp hx with hx | hx
          · subst hx
            omega
          · exact ⟨x, hx, hxeq⟩
      · by_cases h2 : cur.keyOp = clause.keyOp
        · rw [insertClause_cons_eq rest h1 h2]
          simp only [true_iff]
          exact ⟨cur, List.mem_cons_self cur rest, h2⟩
        · rw [insertClause_cons_gt rest h1 h2]
          simp only [Bool.false_eq_true, false_iff]
          rintro ⟨x, hx, hxeq⟩
          rcases List.mem_cons.mp hx with hx | hx
          · subst hx
            exact h2 hxeq
          · have := hcur x hx
            omega

/-- C5 counterexample.  A clause with `KEY_REQUIRED` set that is absorbed
into an existing clause of equal key does not contribute its category bit:
`addClause` returns from the absorb branch before the `indexBits` update, so
after inserting a non-required clause for key 5 and then a required one for
the same key, `indexBits` is still 0. -/
theorem selector_indexBits_absorb_counterexample :
    (((Selector.init 0).addClause ⟨5, 0, 3⟩).addClause
        ⟨5, TagClause.KEY_REQUIRED, 3⟩).indexBits = 0 ∧
    (⟨5, TagClause.KEY_REQUIRED, 3⟩ : TagClause).flags &&&
        TagClause.KEY_REQUIRED ≠ 0 ∧
    IndexBits.fromCategory 3 ≠ 0 := by
  refine ⟨rfl, by decide, by decide⟩

/-- C5 (amended).  On a selector with a sorted clause chain: a
`KEY_REQUIRED` clause whose key is new is linked in and ORs its category bit
into `indexBits`; a clause whose key equals an existing clause's key is
absorbed and leaves `indexBits` unchanged (its category bit is not added). -/
theorem selector_addClause_indexBits_amended (s : Selector) (clause : TagClause)
    (hs : List.Pairwise (fun a b => a.keyOp < b.keyOp) s.firstClause) :
    ((∀ x ∈ s.firstClause, x.keyOp ≠ clause.keyOp) →
        clause.flags &&& TagClause.KEY_REQUIRED ≠ 0 →
        (s.addClause clause).indexBits =
          s.indexBits ||| IndexBits.fromCategory clause.category) ∧
    ((∃ x ∈ s.firstClause, x.keyOp = clause.keyOp) →
        (s.addClause clause).indexBits = s.indexBits) := by
  constructor
  · intro hnone hreq
    have habs : (insertClause s.firstClause clause).2 = false := by
      rcases Bool.eq_false_or_eq_true (insertClause s.firstClause clause).2 with
        h | h
      · exfalso
        rcases (insertClause_absorbed_iff clause hs).mp h with ⟨x, hx, hxeq⟩
        exact hnone x hx hxeq
      · exact h
    unfold Selector.addClause
    simp only [habs, Bool.false_eq_true, if_false]
    rw [if_pos hreq]
  · rintro hex
    have habs : (insertClause s.firstClause clause).2 = true :=
      (insertClause_absorbed_iff clause hs).mpr hex
    unfold Selector.addClause
    simp only [habs, if_true]

/-- Closed witness for C5 (amended): inserting a `KEY_REQUIRED` clause for a
fresh key into an empty selector sets its category bit, and adding an
equal-key clause afterwards leaves `indexBits` unchanged. -/
theorem selector_addClause_indexBits_amended_witness :
    ((Selector.init 0).addClause ⟨5, 1, 3⟩).indexBits =
      (Selector.init 0).indexBits ||| IndexBits.fromCategory 3 :=
  (selector_addClause_indexBits_amended (Selector.init 0) ⟨5, 1, 3⟩
      (by simp [Selector.init])).1 (by simp [Selector.init]) (by decide)

/-! ## Deduplicator -/

/-- State of a `Deduplicator`: the hash table as a list of bucket chains
(`table_`, each chain threaded through `next` pointers with the most recently
inserted item at the head) and the item count (`count_`). -/
structure Deduplicator (α : Type) where
  table : List (List α)
  count : Nat
deriving DecidableEq

/-- The chain walk of `Deduplicator::insert`: the first chain entry comparing
equal to `item` under `operator==` (modelled by `eqv`), if any. -/
def findEq (eqv : α → α → Bool) : List α → α → Option α
  | [], _ => none
  | x :: xs, item => if eqv item x then some x else findEq eqv xs item

/-- The bucket chain that `item` hashes to. -/
def Deduplicator.chainOf (hash : α → Nat) (d : Deduplicator α) (item : α) :
    List α :=
  d.table.getD (hash item % d.table.length) []

/-- `Deduplicator::insert`: look up `item`'s slot; if an equal item exists in
the chain, return it and change nothing; otherwise link `item` at the chain
head, bump `count_`, and return `item`. -/
def Deduplicator.insert (hash : α → Nat) (eqv : α → α → Bool)
    (d : Deduplicator α) (item : α) : Deduplicator α × α :=
  let slot := hash item % d.table.length
  let chain := d.table.getD slot []
  match findEq eqv chain item with
  | some existing => (d, existing)
  | none =>
    ({ table := d.table.set slot (item :: chain), count := d.count + 1 }, item)

/-- C9.  `Deduplicator::insert` is idempotent on content: a hit returns the
existing item and leaves table and count unchanged; a miss links the item at
its chain head, returns the item, and bumps the count by exactly one; hence
inserting a second item that compares equal to a just-inserted one returns
the first item and leaves the table and count unchanged. -/
theorem deduplicator_insert_spec {α : Type} (hash : α → Nat)
    (eqv : α → α → Bool) (d : Deduplicator α) (item item2 : α)
    (hlen : 0 < d.table.length) :
    (∀ x, findEq eqv (d.chainOf hash item) item = some x →
        d.insert hash eqv item = (d, x)) ∧
    (findEq eqv (d.chainOf hash item) item = none →
        ((d.insert hash eqv item).2 = item ∧
         (d.insert hash eqv item).1.count = d.count + 1 ∧
         (d.insert hash eqv item).1.chainOf hash item =
           item :: d.chainOf hash item)) ∧
    (findEq eqv (d.chainOf hash item) item = none →
        eqv item2 item = true → hash item2 = hash item →
        ((d.insert hash eqv item).1.insert hash eqv item2 =
            ((d.insert hash eqv item).1, item) ∧
         (d.insert hash eqv item).1.count = d.count + 1)) := by
  have hslot : hash item % d.table.length < d.table.length :=
    Nat.mod_lt _ hlen
  refine ⟨?_, ?_, ?_⟩
  · intro x hx
    simp only [Deduplicator.insert]
    unfold Deduplicator.chainOf at hx
    rw [hx]
  · intro hnone
    unfold Deduplicator.chainOf at hnone
    simp only [Deduplicator.insert]
    rw [hnone]
    refine ⟨rfl, rfl, ?_⟩
    unfold Deduplicator.chainOf
    simp only [List.length_set]
    rw [List.getD_eq_getElem?_getD, List.getElem?_set_eq_of_lt _ hslot]
    rfl
  · intro hnone heq hhash
    unfold Deduplicator.chainOf at hnone
    have hstep : d.insert hash eqv item =
        ({ table := d.table.set (hash item % d.table.length)
              (item :: d.table.getD (hash item % d.table.length) []),
           count := d.count + 1 }, item) := by
      simp only [Deduplicator.insert]
      rw [hnone]
    rw [hstep]
    have hlen2 : (d.table.set (hash item % d.table.length)
        (item :: d.table.getD (hash item % d.table.length) [])).length =
          d.table.length := List.length_set d.table _ _
    have hchain2 : (d.table.set (hash item % d.table.length)
        (item :: d.table.getD (hash item % d.table.length) [])).getD
          (hash item2 % d.table.length) [] =
        item :: d.table.getD (hash item % d.table.length) [] := by
      rw [hhash, List.getD_eq_getElem?_getD, List.getElem?_set_eq_of_lt _ hslot]
      rfl
    refine ⟨?_, rfl⟩
    simp only [Deduplicator.insert]
    simp only [hlen2, hchain2]
    have hfind : findEq eqv
        (item :: d.table.getD (hash item % d.table.length) []) item2 =
          some item := by
      unfold findEq
      rw [if_pos heq]
    rw [hfind]

/-- Closed witness for C9: inserting `(1, 0)` and then the equal-content
`(1, 1)` into a one-slot table (first components as both hash and equality)
yields count 1 and returns the first item from both calls. -/
theorem deduplicator_insert_spec_witness :
    ((Deduplicator.mk [[]] 0).insert (fun p : Nat × Nat => p.1)
        (fun p q => p.1 == q.1) (1, 0)).1.insert (fun p : Nat × Nat => p.1)
        (fun p q => p.1 == q.1) (1, 1) =
      (((Deduplicator.mk [[]] 0).insert (fun p : Nat × Nat => p.1)
          (fun p q => p.1 == q.1) (1, 0)).1, (1, 0)) ∧
    ((Deduplicator.mk [[]] 0).insert (fun p : Nat × Nat => p.1)
        (fun p q => p.1 == q.1) (1, 0)).1.count = 1 := by
  have h := (deduplicator_insert_spec (fun p : Nat × Nat => p.1)
      (fun p q => p.1 == q.1) (Deduplicator.mk [[]] 0) (1, 0) (1, 1)
      (by decide)).2.2 (by decide) (by decide) (by decide)
  exact h

/-! ## TaskQueue -/

/-- State of a `TaskQueue`: the circular buffer `queue_` with its capacity
`size_`, read index `front_`, write index `rear_` and occupancy `count_`. -/
structure TaskQueue (α : Type) where
  queue : List α
  size : Nat
  front : Nat
  rear : Nat
  count : Nat
deriving DecidableEq

/-- `TaskQueue::TaskQueue(int size)`: `queue_.resize(size)` fills the buffer
with default-constructed tasks; all indices start at zero. -/
def TaskQueue.init (α : Type) [Inhabited α] (size : Nat) : TaskQueue α :=
  { queue := List.replicate size default, size := size,
    front := 0, rear := 0, count := 0 }

/-- The buffer mutation shared by `post`, `tryPost` and `fill`, performed
under the mutex once `count_ < size_` holds:
`queue_[rear_] = task; rear_ = (rear_ + 1) % size_; count_++`. -/
def TaskQueue.push (q : TaskQueue α) (t : α) : TaskQueue α :=
  { q with queue := q.queue.set q.rear t,
           rear := (q.rear + 1) % q.size,
           count := q.count + 1 }

/-- The dequeue step of `process`, performed under the mutex once
`count_ > 0` holds: take `queue_[front_]`, then
`front_ = (front_ + 1) % size_; count_--`. -/
def TaskQueue.takeFront [Inhabited α] (q : TaskQueue α) : TaskQueue α × α :=
  ({ q with front := (q.front + 1) % q.size, count := q.count - 1 },
   q.queue.getD q.front default)

/-- A serialized queue operation: a task submission or a consumption by
`process`. -/
inductive QueueOp (α : Type) where
  | submit (t : α)
  | consume
deriving DecidableEq

/-- Serialized execution of a sequence of queue operations.  A submission
takes effect only when the queue is not full (`post` blocks until then,
`tryPost` returns false); a consumption takes effect only when the queue is
not empty (`process` waits until then).  Returns the final state, the list of
accepted submissions in order, and the list of consumed tasks in order. -/
def TaskQueue.run [Inhabited α] (q : TaskQueue α) :
    List (QueueOp α) → TaskQueue α × List α × List α
  | [] => (q, [], [])
  | QueueOp.submit t :: ops =>
    if q.count = q.size then q.run ops
    else
      let r := (q.push t).run ops
      (r.1, t :: r.2.1, r.2.2)
  | QueueOp.consume :: ops =>
    if q.count = 0 then q.run ops
    else
      let p := q.takeFront
      let r := p.1.run ops
      (r.1, r.2.1, p.2 :: r.2.2)

/-- The tasks currently stored in the circular buffer, read from `front_` in
ring order. -/
def TaskQueue.pending [Inhabited α] (q : TaskQueue α) : List α :=
  (List.range q.count).map
    (fun i => q.queue.getD ((q.front + i) % q.size) default)

/-- Abstraction relation: queue state `q` represents the task list `l`
(oldest first). -/
def TaskQueue.inv [Inhabited α] (q : TaskQueue α) (l : List α) : Prop :=
  q.queue.length = q.size ∧ q.front < q.size ∧ q.count = l.length ∧
  l.length ≤ q.size ∧ q.rear = (q.front + q.count) % q.size ∧
  ∀ i, i < l.length →
    q.queue.getD ((q.front + i) % q.size) default = l.getD i default

/-- Two ring positions with distinct offsets less than a cycle apart differ. -/
theorem mod_add_ne {n a i j : Nat} (hij : i < j) (hjn : j - i < n) :
    (a + i) % n ≠ (a + j) % n := by
  intro h
  have hm : a + i ≡ a + j [MOD n] := h
  have hm2 : i ≡ j [MOD n] := Nat.ModEq.add_left_cancel rfl hm
  have hdvd : n ∣ j - i := (Nat.modEq_iff_dvd' (by omega)).mp hm2
  have hle : n ≤ j - i := Nat.le_of_dvd (by omega) hdvd
  omega

/-- `push` refines appending a task, provided the queue is not full. -/
theorem taskQueue_inv_push [Inhabited α] {q : TaskQueue α} {l : List α}
    (t : α) (h : TaskQueue.inv q l) (hlt : l.length < q.size) :
    TaskQueue.inv (q.push t) (l ++ [t]) := by
  obtain ⟨hlen, hfront, hcount, hle, hrear, hslots⟩ := h
  have hn : 0 < q.size := by omega
  refine ⟨?_, ?_, ?_, ?_, ?_, ?_⟩
  · show (q.queue.set q.rear t).length = q.size
    rw [List.length_set, hlen]
  · exact hfront
  · show q.count + 1 = (l ++ [t]).length
    simp [hcount]
  · show (l ++ [t]).length ≤ q.size
    simp only [List.length_append, List.length_singleton]
    omega
  · show (q.rear + 1) % q.size = (q.front + (q.count + 1)) % q.size
    rw [hrear, Nat.mod_add_mod]
    congr 1
  · intro i hi
    simp only [List.length_append, List.length_singleton] at hi
    show (q.queue.set q.rear t).getD ((q.front + i) % q.size) default =
      (l ++ [t]).getD i default
    by_cases hil : i < l.length
    · have hne : q.rear ≠ (q.front + i) % q.size := by
        rw [hrear, hcount]
        exact (mod_add_ne hil (by omega)).symm
      rw [List.getD_eq_getElem?_getD, List.getElem?_set_ne hne,
        ← List.getD_eq_getElem?_getD, hslots i hil, List.getD_append _ _ _ _ hil]
    · have hieq : i = l.length := by omega
      subst hieq
      have hpos : (q.front + l.length) % q.size = q.rear := by
        rw [hrear, hcount]
      rw [hpos, List.getD_eq_getElem?_getD,
        List.getElem?_set_eq_of_lt t (by rw [hlen, hrear]; exact Nat.mod_lt _ hn)]
      simp

/-- `takeFront` refines removing the head task, provided the queue is not
empty. -/
theorem taskQueue_inv_takeFront [Inhabited α] {q : TaskQueue α} {x : α}
    {xs : List α} (h : TaskQueue.inv q (x :: xs)) :
    q.takeFront.2 = x ∧ TaskQueue.inv q.takeFront.1 xs := by
  obtain ⟨hlen, hfront, hcount, hle, hrear, hslots⟩ := h
  have hn : 0 < q.size := by omega
  constructor
  · have h0 := hslots 0 (by simp)
    rw [Nat.add_zero, Nat.mod_eq_of_lt hfront] at h0
    simpa [TaskQueue.takeFront] using h0
  · refine ⟨?_, ?_, ?_, ?_, ?_, ?_⟩
    · exact hlen
    · show (q.front + 1) % q.size < q.size
      exact Nat.mod_lt _ hn
    · show q.count - 1 = xs.length
      simp only [List.length_cons] at hcount
      omega
    · show xs.length ≤ q.size
      simp only [List.length_cons] at hle
      omega
    · show q.rear = ((q.front + 1) % q.size + (q.count - 1)) % q.size
      rw [Nat.mod_add_mod, hrear]
      congr 1
      simp only [List.length_cons] at hcount
      omega
    · intro i hi
      show q.queue.getD (((q.front + 1) % q.size + i) % q.size) default =
        xs.getD i default
      rw [Nat.mod_add_mod]
      have hstep := hslots (i + 1) (by simp; omega)
      rw [show q.front + 1 + i = q.front + (i + 1) by omega, hstep]
      simp

/-- The pending list of a state satisfying the invariant is the abstract
task list. -/
theorem taskQueue_pending_eq [Inhabited α] {q : TaskQueue α} {l : List α}
    (h : TaskQueue.inv q l) : q.pending = l := by
  obtain ⟨hlen, hfront, hcount, hle, hrear, hslots⟩ := h
  apply List.ext_getElem
  · simp [TaskQueue.pending, hcount]
  · intro i h1 h2
    simp only [TaskQueue.pending, List.getElem_map, List.getElem_range]
    have hi : i < l.length := by
      simpa [TaskQueue.pending, hcount] using h1
    rw [hslots i hi, List.getD_eq_getElem?_getD, List.getElem?_eq_getElem h2]
    rfl

/-- Refinement of `run` by the abstract FIFO list: the consumed tasks
followed by the still-pending tasks are exactly the initial tasks followed by
the accepted submissions, in order. -/
theorem taskQueue_run_spec [Inhabited α] (ops : List (QueueOp α)) :
    ∀ (q : TaskQueue α) (l : List α), TaskQueue.inv q l →
      ∃ lNew, TaskQueue.inv (q.run ops).1 lNew ∧
        (q.run ops).2.2 ++ lNew = l ++ (q.run ops).2.1 := by
  induction ops with
  | nil =>
      intro q l h
      exact ⟨l, by simpa [TaskQueue.run] using h, by simp [TaskQueue.run]⟩
  | cons op ops ih =>
      intro q l h
      cases op with
      | submit t =>
          by_cases hfull : q.count = q.size
          · simp only [TaskQueue.run, hfull, if_true]
            exact ih q l h
          · simp only [TaskQueue.run, hfull, if_false]
            have hlt : l.length < q.size := by
              have hcount := h.2.2.1
              have hle := h.2.2.2.1
              omega
            obtain ⟨lNew, hinv, heq⟩ :=
              ih (q.push t) (l ++ [t]) (taskQueue_inv_push t h hlt)
            refine ⟨lNew, hinv, ?_⟩
            rw [heq]
            simp
      | consume =>
          by_cases hempty : q.count = 0
          · simp only [TaskQueue.run, hempty, if_true]
            exact ih q l h
          · simp only [TaskQueue.run, hempty, if_false]
            cases l with
            | nil =>
                have hcount := h.2.2.1
                simp at hcount
                exact absurd hcount hempty
            | cons x xs =>
                obtain ⟨hx, hinvTail⟩ := taskQueue_inv_takeFront h
                obtain ⟨lNew, hinv, heq⟩ := ih q.takeFront.1 xs hinvTail
                refine ⟨lNew, hinv, ?_⟩
                simp only [List.cons_append, hx, heq]

/-- C7.  The task queue is first-in-first-out: for every serialized sequence
of submissions (`post` / `tryPost`) and consumptions (`process`) starting
from a fresh queue of positive capacity, the consumed tasks followed by the
tasks still in the ring buffer are exactly the accepted submissions in
submission order — nothing is reordered, dropped, or duplicated. -/
theorem taskQueue_fifo (α : Type) [Inhabited α] (n : Nat) (hn : 0 < n)
    (ops : List (QueueOp α)) :
    ((TaskQueue.init α n).run ops).2.2 ++
        ((TaskQueue.init α n).run ops).1.pending =
      ((TaskQueue.init α n).run ops).2.1 := by
  have hinit : TaskQueue.inv (TaskQueue.init α n) [] := by
    refine ⟨?_, ?_, rfl, by simp, ?_, ?_⟩
    · simp [TaskQueue.init]
    · simpa [TaskQueue.init] using hn
    · simp [TaskQueue.init]
    · intro i hi
      simp at hi
  obtain ⟨lNew, hinv, heq⟩ := taskQueue_run_spec ops (TaskQueue.init α n) [] hinit
  rw [taskQueue_pending_eq hinv]
  simpa using heq

/-- Closed witness for C7: two submissions and one consumption on a queue of
capacity 2. -/
theorem taskQueue_fifo_witness :
    ((TaskQueue.init Nat 2).run
        [QueueOp.submit 4, QueueOp.submit 7, QueueOp.consume]).2.2 ++
      ((TaskQueue.init Nat 2).run
        [QueueOp.submit 4, QueueOp.submit 7, QueueOp.consume]).1.pending =
      ((TaskQueue.init Nat 2).run
        [QueueOp.submit 4, QueueOp.submit 7, QueueOp.consume]).2.1 :=
  taskQueue_fifo Nat 2 (by norm_num)
    [QueueOp.submit 4, QueueOp.submit 7, QueueOp.consume]
